import Mathlib

/-!
# Verification of the github-graph ingestion pipeline and retrieval orchestrator

This file gives a shallow embedding, in Lean 4, of the parts of the
`backend/app` Python sources that the specification's claims are about:

* `EmbeddingService._create_sliding_window_chunks` and the class-chunking
  branch of `_generate_embeddings_for_file` (embedding_service.py);
* the setup phase of `FileProcessingService.process_repository_files`
  together with `AIService.__init__` and `EmbeddingService.__init__`;
* the `current_step` writes performed by the pipeline (task_service.py,
  task_steps.py, file_processing_service.py);
* the streaming `<think>` filter, tool-call assembly, event emission and
  source tracking of `QueryService.stream_query` (query_service.py);
* the hybrid scoring of `VectorSearchService._vector_search` and the exact
  lookup `find_function` / `_regex_search_function` (vector_search_service.py);
* `strip_thinking_content` (utils/text_utils.py) and the persistence points
  of per-file summaries and the repository overview (ai_service.py);
* `PythonParser._extract_functions` / `_extract_classes` (python_parser.py).

Python strings are modelled as `List Char`, line numbers and indices as `Nat`,
scores as `ℚ`, fallible code as `Except`/`Option`.  Loops whose counters are
not structural are given explicit fuel together with proofs that the fuel
used at the call sites is sufficient.
-/

namespace GithubGraph

/-! ## EmbeddingService: sliding-window chunking

`EmbeddingService._create_sliding_window_chunks(content, start_line, end_line,
chunk_size=700, overlap=100)` (embedding_service.py lines 268-295):

```python
step = chunk_size - overlap          # 600 at the call site
current = start_line
while current < end_line:
    chunk_end = min(current + chunk_size, end_line)
    chunks.append({"start": current, "end": chunk_end, "code": ...})
    current += step
    if chunk_end >= end_line:
        break
```

The only call site (`_generate_embeddings_for_file`, lines 175-181) uses
`chunk_size=700, overlap=100`, so the embedding fixes those constants.
A chunk is represented by its `(start, end)` pair; the `code` field is
`_extract_code_by_lines(content, start, end)`, i.e. lines `start..end`
inclusive.  The loop advances `current` by `600 > 0` each iteration, so
`end_line - start_line` units of fuel are sufficient. -/

def slidingChunksAux : Nat → Nat → Nat → List (Nat × Nat)
  | 0, _, _ => []
  | fuel + 1, current, endLine =>
    if current < endLine then
      let chunkEnd := min (current + 700) endLine
      (current, chunkEnd) ::
        (if endLine ≤ chunkEnd then [] else slidingChunksAux fuel (current + 600) endLine)
    else []

/-- `_create_sliding_window_chunks` at the call site (chunk_size 700, overlap 100). -/
def createSlidingWindowChunks (startLine endLine : Nat) : List (Nat × Nat) :=
  slidingChunksAux (endLine - startLine) startLine endLine

/-- A `class_chunk` embedding record as assembled by
`_generate_embeddings_for_file` (embedding_service.py lines 183-199) when a
class spans more than 800 lines.  Only the fields the claims mention are kept;
`name` is `"{cls}_chunk_{i+1}"`, `code` is the extracted line range. -/
structure ClassChunkRec where
  parentClass : String
  lineStart : Nat
  lineEnd : Nat
  chunkIndex : Nat
  totalChunks : Nat
deriving DecidableEq, Repr

/-- The list of `class_chunk` records emitted for a class with
`line_end - line_start > 800`, assuming every per-chunk embedding call
succeeds (a failed call is logged and its record skipped; the claims under
test presuppose the success path). -/
def classChunkRecords (className : String) (lineStart lineEnd : Nat) : List ClassChunkRec :=
  let chunks := createSlidingWindowChunks lineStart lineEnd
  chunks.enum.map fun (i, c) =>
    { parentClass := className
      lineStart := c.1
      lineEnd := c.2
      chunkIndex := i + 1
      totalChunks := chunks.length }

example : createSlidingWindowChunks 10 910 = [(10, 710), (610, 910)] := by decide

theorem slidingChunksAux_length (e : Nat) :
    ∀ fuel current, e - current ≤ fuel → current < e →
      (slidingChunksAux fuel current e).length =
        if e - current ≤ 700 then 1 else (e - current + 499) / 600 := by
  intro fuel
  induction fuel with
  | zero => intro current hfuel h; omega
  | succ f ih =>
    intro current hfuel h
    simp only [slidingChunksAux, if_pos h]
    by_cases hend : e ≤ min (current + 700) e
    · have h700 : e - current ≤ 700 := by omega
      simp [hend, h700]
    · have h700 : ¬ e - current ≤ 700 := by omega
      have hlt : current + 600 < e := by omega
      rw [if_neg hend, List.length_cons,
        ih (current + 600) (by omega) hlt]
      simp only [h700, if_false]
      by_cases h2 : e - (current + 600) ≤ 700
      · rw [if_pos h2]; omega
      · rw [if_neg h2]; omega

theorem slidingChunksAux_mem (e : Nat) :
    ∀ fuel current, e - current ≤ fuel →
      ∀ p ∈ slidingChunksAux fuel current e,
        current ≤ p.1 ∧ p.1 < e ∧ p.2 = min (p.1 + 700) e := by
  intro fuel
  induction fuel with
  | zero => intro current _ p hp; simp [slidingChunksAux] at hp
  | succ f ih =>
    intro current hfuel p hp
    by_cases h : current < e
    · simp only [slidingChunksAux, if_pos h] at hp
      by_cases hend : e ≤ min (current + 700) e
      · rw [if_pos hend] at hp
        simp at hp
        subst hp
        exact ⟨le_refl _, h, rfl⟩
      · rw [if_neg hend] at hp
        rcases List.mem_cons.mp hp with rfl | hp'
        · exact ⟨le_refl _, h, rfl⟩
        · have := ih (current + 600) (by omega) p hp'
          exact ⟨by omega, this.2.1, this.2.2⟩
    · simp [slidingChunksAux, if_neg h] at hp

theorem slidingChunksAux_head (e fuel current : Nat) (hfuel : e - current ≤ fuel)
    (h : current < e) :
    (slidingChunksAux fuel current e).head? = some (current, min (current + 700) e) := by
  match fuel with
  | 0 => omega
  | f + 1 =>
    simp only [slidingChunksAux, if_pos h]
    by_cases hend : e ≤ min (current + 700) e
    · rw [if_pos hend]; rfl
    · rw [if_neg hend]; rfl

theorem slidingChunksAux_last (e : Nat) :
    ∀ fuel current, e - current ≤ fuel → current < e →
      ∃ a, (slidingChunksAux fuel current e).getLast? = some (a, e) := by
  intro fuel
  induction fuel with
  | zero => intro current hfuel h; omega
  | succ f ih =>
    intro current hfuel h
    simp only [slidingChunksAux, if_pos h]
    by_cases hend : e ≤ min (current + 700) e
    · refine ⟨current, ?_⟩
      rw [if_pos hend]
      have : min (current + 700) e = e := by omega
      rw [this]
      rfl
    · rw [if_neg hend]
      obtain ⟨a, ha⟩ := ih (current + 600) (by omega) (by omega)
      refine ⟨a, ?_⟩
      rcases hrec : slidingChunksAux f (current + 600) e with _ | ⟨b, t⟩
      · rw [hrec] at ha; simp at ha
      · rw [hrec] at ha
        rw [List.getLast?_cons_cons, ha]

theorem slidingChunksAux_chain (e : Nat) :
    ∀ fuel current, e - current ≤ fuel →
      List.Chain' (fun p q : Nat × Nat => q.1 + 100 ≤ p.2)
        (slidingChunksAux fuel current e) := by
  intro fuel
  induction fuel with
  | zero => intro current _; simp [slidingChunksAux]
  | succ f ih =>
    intro current hfuel
    by_cases h : current < e
    · simp only [slidingChunksAux, if_pos h]
      by_cases hend : e ≤ min (current + 700) e
      · rw [if_pos hend]; simp
      · rw [if_neg hend]
        rw [List.chain'_cons']
        constructor
        · intro q hq
          rw [slidingChunksAux_head e f (current + 600) (by omega) (by omega)] at hq
          simp at hq
          subst hq
          simp
          omega
        · exact ih (current + 600) (by omega)
    · simp [slidingChunksAux, if_neg h]

theorem slidingChunksAux_cover (e : Nat) :
    ∀ fuel current, e - current ≤ fuel → current < e →
      ∀ x, current ≤ x → x ≤ e →
        ∃ p ∈ slidingChunksAux fuel current e, p.1 ≤ x ∧ x ≤ p.2 := by
  intro fuel
  induction fuel with
  | zero => intro current hfuel h; omega
  | succ f ih =>
    intro current hfuel h x hx1 hx2
    simp only [slidingChunksAux, if_pos h]
    by_cases hend : e ≤ min (current + 700) e
    · rw [if_pos hend]
      exact ⟨(current, min (current + 700) e), by simp, hx1, by omega⟩
    · rw [if_neg hend]
      by_cases hx3 : x ≤ current + 700
      · exact ⟨(current, min (current + 700) e), by simp, hx1, by omega⟩
      · obtain ⟨p, hp, hpx⟩ := ih (current + 600) (by omega) (by omega) x (by omega) hx2
        exact ⟨p, List.mem_cons_of_mem _ hp, hpx⟩

/-- The spans `(lineStart, lineEnd)` of the emitted records are exactly the
chunks produced by `_create_sliding_window_chunks`. -/
theorem classChunkRecords_spans (name : String) (s e : Nat) :
    (classChunkRecords name s e).map (fun r => (r.lineStart, r.lineEnd)) =
      createSlidingWindowChunks s e := by
  unfold classChunkRecords
  rw [List.map_map]
  have : ((fun r : ClassChunkRec => (r.lineStart, r.lineEnd)) ∘
      (fun (p : Nat × Nat × Nat) =>
        ({ parentClass := name, lineStart := p.2.1, lineEnd := p.2.2,
           chunkIndex := p.1 + 1,
           totalChunks := (createSlidingWindowChunks s e).length } : ClassChunkRec))) =
      Prod.snd := by
    funext p
    rfl
  rw [this, List.enum_map_snd]

/-- C2 (counterexample): for a class spanning lines 10–910 the chunker emits
chunk spans `[10, 710]` and `[610, 910]` — not `[10, 709]` and `[610, 910]` as
claimed.  The loop computes `chunk_end = min(current + chunk_size, end_line)`
with no `- 1`, so the first chunk ends at line 710. -/
theorem chunker_span_10_910_counterexample :
    (classChunkRecords "Engine" 10 910).map (fun r => (r.lineStart, r.lineEnd)) =
      [(10, 710), (610, 910)] ∧
    (classChunkRecords "Engine" 10 910).map (fun r => (r.lineStart, r.lineEnd)) ≠
      [(10, 709), (610, 910)] := by
  constructor
  · decide
  · decide

/-- C2 (amended): for every class whose span `line_end - line_start` exceeds
800 lines, the chunker emits `class_chunk` records with
`total_chunks = ceil((span - overlap) / (chunk_size - overlap))`
(chunk_size 700, overlap 100), every chunk span `line_end - line_start ≤ 700`,
adjacent chunks overlapping by at least 100 lines, and the chunks collectively
covering `[class.line_start, class.line_end]`; for a class spanning lines
10–910 the two chunks are `[10, 710]` and `[610, 910]` (the first chunk ends
at 710, not 709). -/
theorem chunker_large_class (name : String) (s e : Nat) (h : 800 < e - s) :
    (classChunkRecords name s e).length = ((e - s) - 100 + 599) / 600 ∧
    (∀ r ∈ classChunkRecords name s e,
        r.totalChunks = (classChunkRecords name s e).length ∧
        r.parentClass = name ∧
        r.lineEnd - r.lineStart ≤ 700 ∧ s ≤ r.lineStart ∧ r.lineEnd ≤ e) ∧
    List.Chain' (fun p q : ClassChunkRec => q.lineStart + 100 ≤ p.lineEnd)
      (classChunkRecords name s e) ∧
    (∀ x, s ≤ x → x ≤ e →
      ∃ r ∈ classChunkRecords name s e, r.lineStart ≤ x ∧ x ≤ r.lineEnd) := by
  have hse : s < e := by omega
  have hlen : (classChunkRecords name s e).length =
      (createSlidingWindowChunks s e).length := by
    unfold classChunkRecords
    rw [List.length_map, List.enum_length]
  have hspans := classChunkRecords_spans name s e
  refine ⟨?_, ?_, ?_, ?_⟩
  · rw [hlen]
    unfold createSlidingWindowChunks
    rw [slidingChunksAux_length e (e - s) s (le_refl _) hse]
    have h700 : ¬ e - s ≤ 700 := by omega
    rw [if_neg h700]
    have : e - s - 100 + 599 = e - s + 499 := by omega
    rw [this]
  · intro r hr
    have hmem : (r.lineStart, r.lineEnd) ∈ createSlidingWindowChunks s e := by
      rw [← hspans]
      exact List.mem_map.mpr ⟨r, hr, rfl⟩
    have hprops := slidingChunksAux_mem e (e - s) s (le_refl _) _ hmem
    have hr' : r ∈ (createSlidingWindowChunks s e).enum.map
        (fun (p : Nat × Nat × Nat) =>
          ({ parentClass := name, lineStart := p.2.1, lineEnd := p.2.2,
             chunkIndex := p.1 + 1,
             totalChunks := (createSlidingWindowChunks s e).length } : ClassChunkRec)) := by
      simpa [classChunkRecords] using hr
    obtain ⟨p, _, hpr⟩ := List.mem_map.mp hr'
    refine ⟨?_, ?_, ?_, ?_, ?_⟩
    · rw [hlen, ← hpr]
    · rw [← hpr]
    · simp only at hprops
      omega
    · exact hprops.1
    · simp only at hprops
      omega
  · have hchain := slidingChunksAux_chain e (e - s) s (le_refl _)
    rw [show slidingChunksAux (e - s) s e = createSlidingWindowChunks s e from rfl,
      ← hspans, List.chain'_map] at hchain
    exact hchain
  · intro x hx1 hx2
    obtain ⟨p, hp, hpx⟩ :=
      slidingChunksAux_cover e (e - s) s (le_refl _) hse x hx1 hx2
    rw [show slidingChunksAux (e - s) s e = createSlidingWindowChunks s e from rfl,
      ← hspans] at hp
    obtain ⟨r, hr, hrp⟩ := List.mem_map.mp hp
    refine ⟨r, hr, ?_, ?_⟩
    · rw [← hrp] at hpx; exact hpx.1
    · rw [← hrp] at hpx; exact hpx.2

/-- Concrete instantiation of `chunker_large_class` for a class spanning lines
10–910 (span 900, two chunks). -/
theorem chunker_large_class_witness :
    (classChunkRecords "Engine" 10 910).length = ((910 - 10) - 100 + 599) / 600 :=
  (chunker_large_class "Engine" 10 910 (by decide)).1

/-! ## Task steps and the pipeline's `current_step` writes

`TaskStep` (models/task_steps.py) and the sequence of writes to
`progress.current_step` performed by `TaskService` on behalf of
`FileProcessingService.process_repository_files` (file_processing_service.py
lines 104-160, task_service.py):

* `create_task` initialises `current_step` to `queued`;
* `update_progress(task_id, 0, total, step=PARSING)` before the batch loop;
* one `update_progress(..., step=PARSING)` per batch of 100 files;
* `update_step(EMBEDDING)` before the three-way analysis fan-out;
* `update_step(OVERVIEW)` before the post-fan-out stage;
* `update_step(FINALIZING)` and then `complete_task`, which writes
  `completed`;
* when the extracted file list is empty, `complete_task` runs immediately
  after `create_task`.

`fail_task` sets `status = "failed"` and leaves `current_step` untouched.
No code path writes `fetching` or `summarizing`. -/

inductive TaskStep where
  | queued
  | fetching
  | parsing
  | embedding
  | summarizing
  | overview
  | finalizing
  | completed
deriving DecidableEq, Repr

/-- The string value of each enum member (task_steps.py lines 12-27). -/
def TaskStep.value : TaskStep → String
  | .queued => "queued"
  | .fetching => "fetching"
  | .parsing => "parsing"
  | .embedding => "embedding"
  | .summarizing => "summarizing"
  | .overview => "overview"
  | .finalizing => "finalizing"
  | .completed => "completed"

/-- Position of a step in the spec's progression
`queued < fetching < parsing < embedding < summarizing < overview <
finalizing < completed`. -/
def TaskStep.idx : TaskStep → Nat
  | .queued => 0
  | .fetching => 1
  | .parsing => 2
  | .embedding => 3
  | .summarizing => 4
  | .overview => 5
  | .finalizing => 6
  | .completed => 7

/-- The successive values taken by `progress.current_step` over a successful
ingestion run of `totalFiles` files (setup already done, no stage raising);
`(totalFiles + 99) / 100` is the number of batches of 100. -/
def pipelineStepTrace (totalFiles : Nat) : List TaskStep :=
  if totalFiles = 0 then [.queued, .completed]
  else
    [TaskStep.queued, .parsing] ++
      List.replicate ((totalFiles + 99) / 100) TaskStep.parsing ++
      [TaskStep.embedding, .overview, .finalizing, .completed]

/-- C3 (counterexample): a run over one file completes without
`current_step` ever taking the value `fetching` (nor `summarizing`): the
pipeline writes `parsing` directly and covers summarisation under the single
`embedding` step, so the claimed "each step is entered, none is skipped"
fails. -/
theorem step_sequence_counterexample :
    pipelineStepTrace 1 =
      [.queued, .parsing, .parsing, .embedding, .overview, .finalizing, .completed] ∧
    TaskStep.fetching ∉ pipelineStepTrace 1 ∧
    TaskStep.summarizing ∉ pipelineStepTrace 1 := by
  refine ⟨by decide, by decide, by decide⟩

theorem chain'_replicate_parsing (k : Nat) :
    List.Chain' (fun a b : TaskStep => a.idx ≤ b.idx)
      (List.replicate k TaskStep.parsing ++
        [TaskStep.embedding, .overview, .finalizing, .completed]) := by
  induction k with
  | zero =>
    rw [List.replicate_zero, List.nil_append]
    simp only [List.chain'_cons, List.chain'_singleton, and_true]
    decide
  | succ n ih =>
    rw [List.replicate_succ, List.cons_append, List.chain'_cons']
    refine ⟨?_, ih⟩
    intro b hb
    match n with
    | 0 => simp at hb; subst hb; decide
    | m + 1 => simp [List.replicate_succ] at hb; subst hb; decide

/-- C3 (amended): over every run that completes, `current_step` is monotone
in the order `queued < parsing < embedding < overview < finalizing <
completed`, starting at `queued` and ending at `completed`; the steps
`fetching` and `summarizing` are never entered (summarisation happens under
the `embedding` step), and on a non-empty file set each of the six remaining
steps is entered.  Failure sets the task's `status` to `failed` and leaves
`current_step` at its last value. -/
theorem step_sequence_monotone (n : Nat) (h : 0 < n) :
    List.Chain' (fun a b : TaskStep => a.idx ≤ b.idx) (pipelineStepTrace n) ∧
    (pipelineStepTrace n).head? = some .queued ∧
    (pipelineStepTrace n).getLast? = some .completed ∧
    TaskStep.fetching ∉ pipelineStepTrace n ∧
    TaskStep.summarizing ∉ pipelineStepTrace n ∧
    TaskStep.parsing ∈ pipelineStepTrace n ∧
    TaskStep.embedding ∈ pipelineStepTrace n ∧
    TaskStep.overview ∈ pipelineStepTrace n ∧
    TaskStep.finalizing ∈ pipelineStepTrace n := by
  have hn : ¬ n = 0 := by omega
  unfold pipelineStepTrace
  rw [if_neg hn]
  refine ⟨?_, ?_, ?_, ?_, ?_, ?_, ?_, ?_, ?_⟩
  · simp only [List.cons_append, List.nil_append]
    rw [List.chain'_cons']
    refine ⟨?_, ?_⟩
    · intro b hb
      simp at hb
      subst hb
      decide
    · rw [List.chain'_cons']
      refine ⟨?_, chain'_replicate_parsing _⟩
      intro b hb
      rcases hk : (n + 99) / 100 with _ | m
      · rw [hk] at hb; simp at hb; subst hb; decide
      · rw [hk, List.replicate_succ] at hb
        simp at hb
        subst hb
        decide
  · rfl
  · rw [show [TaskStep.embedding, .overview, .finalizing, .completed] =
        [TaskStep.embedding, .overview, .finalizing] ++ [TaskStep.completed] from rfl,
      ← List.append_assoc]
    exact List.getLast?_concat _
  · simp [List.mem_replicate]
  · simp [List.mem_replicate]
  · simp
  · simp
  · simp
  · simp

/-- Concrete instantiation of `step_sequence_monotone` for a single-file run. -/
theorem step_sequence_monotone_witness :
    TaskStep.fetching ∉ pipelineStepTrace 1 ∧ TaskStep.parsing ∈ pipelineStepTrace 1 :=
  ⟨(step_sequence_monotone 1 (by decide)).2.2.2.1,
   (step_sequence_monotone 1 (by decide)).2.2.2.2.2.1⟩

/-! ## Pipeline setup: preference resolution and client construction

The setup phase of `process_repository_files` (file_processing_service.py
lines 57-102): resolve AI preferences (session first, `.env` fallback in
development mode), then construct `AIService(api_key, provider, model)` and
`EmbeddingService(api_key=api_key)`.

`AIService.__init__` (ai_service.py lines 34-65) checks the credential,
resolves provider and model, builds the chat client, and then at line 65 runs
`self.embedding_service = EmbeddingService()` — with *no* argument, although
`EmbeddingService.__init__(self, api_key, provider=None)`
(embedding_service.py line 31) has no default for `api_key`.  Python
therefore raises `TypeError: missing 1 required positional argument` before
`AIService.__init__` can return; the exception propagates to the handler at
file_processing_service.py line 161, which marks the task failed. -/

inductive SetupError where
  /-- `ValueError("API key is required ...")`, ai_service.py line 44 /
  embedding_service.py line 40. -/
  | valueErrorApiKeyRequired
  /-- `ValueError("Unknown provider ...")`, providers.py line 43. -/
  | valueErrorUnknownProvider
  /-- `TypeError` from `EmbeddingService()` at ai_service.py line 65:
  the required positional argument `api_key` is not supplied. -/
  | typeErrorMissingApiKeyArgument
  /-- `ValueError("Session not found ...")`, file_processing_service.py
  line 69 (non-development mode only). -/
  | valueErrorSessionNotFound
  /-- `ValueError("Session preferences not set ...")`,
  file_processing_service.py line 85 (non-development mode only). -/
  | valueErrorPreferencesNotSet
deriving DecidableEq, Repr

/-- The relevant fields of `Settings` (config/settings.py) with their
declared defaults. -/
structure Settings where
  env : String := "development"
  aiProvider : String := "openai"
  aiModel : String := "gpt-4o-mini"
deriving DecidableEq, Repr

structure Preferences where
  aiProvider : Option String
  aiModel : Option String
deriving DecidableEq, Repr

structure Session where
  preferences : Option Preferences
deriving DecidableEq, Repr

structure ProviderCfg where
  baseUrl : String
  embeddingModel : String
deriving DecidableEq, Repr

deriving instance DecidableEq for Except

/-- ASCII lower-casing of one character (provider names are ASCII). -/
def lowerChar (c : Char) : Char :=
  if 'A' ≤ c ∧ c ≤ 'Z' then Char.ofNat (c.toNat + 32) else c

/-- `str.lower()` on provider names. -/
def pyLower (s : String) : String := String.mk (s.data.map lowerChar)

/-- `ProviderConfig.get_provider_config` (providers.py lines 37-46): only
`openai` and `gemini` are configured; anything else raises `ValueError`. -/
def getProviderConfig (provider : String) : Except SetupError ProviderCfg :=
  if pyLower provider = "openai" then
    .ok ⟨"https://api.openai.com/v1", "text-embedding-3-small"⟩
  else if pyLower provider = "gemini" then
    .ok ⟨"https://generativelanguage.googleapis.com/v1beta/openai/",
         "text-embedding-004"⟩
  else .error .valueErrorUnknownProvider

/-- `AIService._get_default_model` (ai_service.py lines 67-75). -/
def getDefaultModel (provider : String) : String :=
  if provider = "openai" then "gpt-4o-mini"
  else if provider = "gemini" then "gemini-1.5-flash"
  else if provider = "together" then "meta-llama/Meta-Llama-3.1-70B-Instruct-Turbo"
  else if provider = "fireworks" then "accounts/fireworks/models/llama-v3p1-70b-instruct"
  else "gpt-4o-mini"

/-- Python `a or b` truthiness chain on strings (empty string is falsy). -/
def orElseStr (a b : String) : String := if a = "" then b else a

/-- Preference resolution, file_processing_service.py lines 57-85.  Returns
the `(provider, model)` pair handed to `AIService`, or the raised error.
`session = none` models a session id that is not in the store;
`preferences.get("ai_provider")` is truthy only for a present, non-empty
string. -/
def resolvePreferences (settings : Settings) (session : Option Session) :
    Except SetupError (String × Option String) :=
  match session with
  | none =>
    if settings.env = "development" then
      .ok (orElseStr settings.aiProvider "openai", some settings.aiModel)
    else .error .valueErrorSessionNotFound
  | some s =>
    match s.preferences with
    | some p =>
      match p.aiProvider with
      | some prov =>
        if prov ≠ "" then .ok (prov, p.aiModel)
        else if settings.env = "development" then
          .ok (orElseStr settings.aiProvider "openai", some settings.aiModel)
        else .error .valueErrorPreferencesNotSet
      | none =>
        if settings.env = "development" then
          .ok (orElseStr settings.aiProvider "openai", some settings.aiModel)
        else .error .valueErrorPreferencesNotSet
    | none =>
      if settings.env = "development" then
        .ok (orElseStr settings.aiProvider "openai", some settings.aiModel)
      else .error .valueErrorPreferencesNotSet

structure AIServiceState where
  provider : String
  model : String
  baseUrl : String
deriving DecidableEq, Repr

structure EmbeddingServiceState where
  provider : String
  embeddingModel : String
  dimension : Nat
deriving DecidableEq, Repr

/-- `EmbeddingService.__init__(api_key, provider=None)`
(embedding_service.py lines 31-54), as called with an explicit `api_key`. -/
def embeddingServiceInit (settings : Settings) (apiKey : String)
    (provider : Option String) : Except SetupError EmbeddingServiceState :=
  if apiKey = "" then .error .valueErrorApiKeyRequired
  else
    let prov := orElseStr (provider.getD "") (orElseStr settings.aiProvider "openai")
    match getProviderConfig prov with
    | .error e => .error e
    | .ok cfg => .ok ⟨prov, cfg.embeddingModel, 768⟩

/-- `AIService.__init__(api_key, provider=None, model=None)` (ai_service.py
lines 34-65).  After the credential check, provider/model resolution and chat
client construction, line 65 evaluates `EmbeddingService()` with no
arguments, which Python rejects with a `TypeError` since `api_key` has no
default; `__init__` therefore never returns normally. -/
def aiServiceInit (settings : Settings) (apiKey : String)
    (provider model : Option String) : Except SetupError AIServiceState :=
  if apiKey = "" then .error .valueErrorApiKeyRequired
  else
    let prov := orElseStr (provider.getD "") (orElseStr settings.aiProvider "openai")
    match getProviderConfig prov with
    | .error e => .error e
    | .ok _cfg =>
      -- line 65: `self.embedding_service = EmbeddingService()` raises
      -- TypeError: __init__() missing 1 required positional argument: 'api_key'
      .error .typeErrorMissingApiKeyArgument

/-- Outcome of the setup phase: either both clients are built and control
reaches the fetch stage (step 1, line 104), or an exception is caught at
line 161 and the task is marked failed. -/
inductive SetupOutcome where
  | proceeds (ai : AIServiceState) (emb : EmbeddingServiceState)
  | failed (e : SetupError)
deriving DecidableEq, Repr

/-- Client construction once preferences are resolved:
`AIService(api_key=api_key, provider=provider, model=model)` (line 91), then
`EmbeddingService(api_key=api_key)` (line 102). -/
def setupClients (settings : Settings) (apiKey : String) (prov : String)
    (model : Option String) : SetupOutcome :=
  match aiServiceInit settings apiKey (some prov) model with
  | .error e => .failed e
  | .ok ai =>
    match embeddingServiceInit settings apiKey none with
    | .error e => .failed e
    | .ok emb => .proceeds ai emb

/-- The setup phase of `process_repository_files` (lines 57-102):
preference resolution, then client construction. -/
def pipelineSetup (settings : Settings) (session : Option Session)
    (apiKey : String) : SetupOutcome :=
  match resolvePreferences settings session with
  | .error e => .failed e
  | .ok pm => setupClients settings apiKey pm.1 pm.2

theorem pipelineSetup_ok (settings : Settings) (session : Option Session)
    (apiKey : String) (pm : String × Option String)
    (hres : resolvePreferences settings session = .ok pm) :
    pipelineSetup settings session apiKey = setupClients settings apiKey pm.1 pm.2 := by
  unfold pipelineSetup
  rw [hres]

theorem aiServiceInit_never_ok (settings : Settings) (apiKey : String)
    (provider model : Option String) (st : AIServiceState) :
    aiServiceInit settings apiKey provider model ≠ .ok st := by
  unfold aiServiceInit
  by_cases h : apiKey = ""
  · simp [h]
  · simp only [h, if_false]
    rcases getProviderConfig
        (orElseStr (provider.getD "") (orElseStr settings.aiProvider "openai")) with e | cfg
    · simp
    · simp

/-- C1: contrary to the claim, a run whose AI preferences resolve and whose
credential is non-empty never reaches the fetch stage: `AIService.__init__`
calls `EmbeddingService()` without the required `api_key` argument
(ai_service.py line 65), so setup always raises and the task is marked
failed during setup even though none of the listed fatal conditions holds.
When the resolved provider is a configured one, the failure is exactly the
missing-argument `TypeError`. -/
theorem setup_constructor_failure (settings : Settings) (session : Option Session)
    (apiKey : String) (pm : String × Option String)
    (hres : resolvePreferences settings session = .ok pm) (hkey : apiKey ≠ "") :
    (∀ ai emb, pipelineSetup settings session apiKey ≠ .proceeds ai emb) ∧
    ((∃ cfg, getProviderConfig pm.1 = .ok cfg) →
      pipelineSetup settings session apiKey =
        .failed .typeErrorMissingApiKeyArgument) := by
  obtain ⟨prov, model⟩ := pm
  have hps := pipelineSetup_ok settings session apiKey (prov, model) hres
  simp only at hps
  constructor
  · intro ai emb
    rw [hps]
    unfold setupClients
    rcases hai : aiServiceInit settings apiKey (some prov) model with e | st
    · simp
    · exact absurd hai (aiServiceInit_never_ok _ _ _ _ _)
  · rintro ⟨cfg, hcfg⟩
    simp only at hcfg
    rw [hps]
    unfold setupClients aiServiceInit
    rw [if_neg hkey]
    by_cases h : prov = ""
    · exfalso
      rw [h] at hcfg
      unfold getProviderConfig at hcfg
      simp [show pyLower "" = "" from rfl] at hcfg
    · have hor : orElseStr prov (orElseStr settings.aiProvider "openai") = prov := by
        unfold orElseStr
        rw [if_neg h]
      simp [hor, hcfg]

/-- Concrete instantiation of `setup_constructor_failure`: a development-mode
run with session preferences `openai` and credential `"sk-test"` fails in
setup with the missing-argument `TypeError`. -/
theorem setup_constructor_failure_witness :
    pipelineSetup {} (some ⟨some ⟨some "openai", some "gpt-4o-mini"⟩⟩) "sk-test" =
      .failed .typeErrorMissingApiKeyArgument :=
  (setup_constructor_failure {} (some ⟨some ⟨some "openai", some "gpt-4o-mini"⟩⟩)
      "sk-test" ("openai", some "gpt-4o-mini") (by rfl) (by decide)).2
    ⟨⟨"https://api.openai.com/v1", "text-embedding-3-small"⟩, by rfl⟩

/-! ## Strings as character lists: `str.find`, `str.strip`

Python text is modelled as `List Char`.  `findSub needle hay` is
`hay.find(needle)`: the index of the first occurrence of `needle` in `hay`,
`none` when absent. -/

def findSub (needle : List Char) : List Char → Option Nat
  | [] => if needle = [] then some 0 else none
  | c :: rest =>
    if needle.isPrefixOf (c :: rest) then some 0
    else (findSub needle rest).map (· + 1)

/-- Decomposition at the found index. -/
theorem findSub_decomp (needle : List Char) :
    ∀ l i, findSub needle l = some i →
      l = l.take i ++ needle ++ l.drop (i + needle.length) := by
  intro l
  induction l with
  | nil =>
    intro i h
    unfold findSub at h
    by_cases hn : needle = ([] : List Char)
    · subst hn; simp
    · simp [hn] at h
  | cons c rest ih =>
    intro i h
    unfold findSub at h
    by_cases hp : needle.isPrefixOf (c :: rest)
    · rw [if_pos hp] at h
      obtain ⟨t, ht⟩ :=  List.isPrefixOf_iff_prefix.mp hp
      simp at h
      subst h
      simp only [List.take_zero, List.nil_append, Nat.zero_add]
      rw [← ht, List.drop_left]
    · rw [if_neg hp] at h
      rcases hfind : findSub needle rest with _ | j
      · rw [hfind] at h; simp at h
      · rw [hfind] at h
        simp at h
        subst h
        have hrec := ih j hfind
        calc c :: rest = c :: (rest.take j ++ needle ++ rest.drop (j + needle.length)) := by
              rw [← hrec]
          _ = (c :: rest).take (j + 1) ++ needle ++ (c :: rest).drop (j + 1 + needle.length) := by
              rw [List.take_succ_cons,
                show j + 1 + needle.length = (j + needle.length) + 1 by omega,
                List.drop_succ_cons, List.cons_append, List.cons_append]

/-- `findSub` finds some index iff the needle occurs. -/
theorem findSub_isSome_iff (needle : List Char) :
    ∀ l, (findSub needle l).isSome ↔ ∃ a b, l = a ++ needle ++ b := by
  intro l
  induction l with
  | nil =>
    constructor
    · intro h
      unfold findSub at h
      by_cases hn : needle = ([] : List Char)
      · exact ⟨[], [], by simp [hn]⟩
      · simp [hn] at h
    · rintro ⟨a, b, hab⟩
      have h1 := List.append_eq_nil.mp hab.symm
      have h2 := List.append_eq_nil.mp h1.1
      unfold findSub
      simp [h2.2]
  | cons c rest ih =>
    constructor
    · intro h
      unfold findSub at h
      by_cases hp : needle.isPrefixOf (c :: rest)
      · obtain ⟨t, ht⟩ :=  List.isPrefixOf_iff_prefix.mp hp
        exact ⟨[], t, by simp [ht.symm]⟩
      · rw [if_neg hp] at h
        rcases hfind : findSub needle rest with _ | j
        · rw [hfind] at h; simp at h
        · obtain ⟨a, b, hab⟩ := ih.mp (by rw [hfind]; rfl)
          exact ⟨c :: a, b, by simp [hab]⟩
    · rintro ⟨a, b, hab⟩
      unfold findSub
      by_cases hp : needle.isPrefixOf (c :: rest)
      · simp [hp]
      · rw [if_neg hp]
        rcases a with _ | ⟨a0, a'⟩
        · exfalso
          apply hp
          rw [ List.isPrefixOf_iff_prefix]
          simp at hab
          exact ⟨b, hab.symm⟩
        · obtain ⟨hc, hrest⟩ : c = a0 ∧ rest = a' ++ (needle ++ b) := by
            simpa using hab
          have hsome := ih.mpr ⟨a', b, by simp [hrest]⟩
          rcases hfind : findSub needle rest with _ | j
          · rw [hfind] at hsome; simp at hsome
          · simp

/-- `findSub` returns the first occurrence: any occurrence starts at or
after the found index. -/
theorem findSub_first (needle : List Char) :
    ∀ l i, findSub needle l = some i →
      ∀ a b, l = a ++ needle ++ b → i ≤ a.length := by
  intro l
  induction l with
  | nil =>
    intro i h a b hab
    unfold findSub at h
    by_cases hn : needle = ([] : List Char)
    · rw [if_pos hn] at h
      simp at h
      omega
    · rw [if_neg hn] at h
      simp at h
  | cons c rest ih =>
    intro i h a b hab
    unfold findSub at h
    by_cases hp : needle.isPrefixOf (c :: rest)
    · rw [if_pos hp] at h
      simp at h
      omega
    · rw [if_neg hp] at h
      rcases hfind : findSub needle rest with _ | j
      · rw [hfind] at h; simp at h
      · rw [hfind] at h
        simp at h
        subst h
        rcases a with _ | ⟨a0, a'⟩
        · exfalso
          apply hp
          rw [ List.isPrefixOf_iff_prefix]
          simp at hab
          exact ⟨b, hab.symm⟩
        · obtain ⟨hc, hrest⟩ : c = a0 ∧ rest = a' ++ (needle ++ b) := by
            simpa using hab
          have hle := ih j hfind a' b (by simp [hrest])
          simpa using Nat.add_le_add_right hle 1

/-- Python's default `str.strip()` whitespace set (ASCII part). -/
def isPySpace (c : Char) : Bool :=
  c = ' ' || c = '\t' || c = '\n' || c = '\r' || c = '\x0b' || c = '\x0c'

/-- `str.strip()`. -/
def pyStrip (l : List Char) : List Char :=
  (((l.dropWhile isPySpace).reverse).dropWhile isPySpace).reverse

/-! ## `<think>` regions and `strip_thinking_content`

`strip_thinking_content` (utils/text_utils.py lines 8-34) applies
`re.sub(r'<think>.*?</think>', '', text, flags=re.DOTALL)` — remove each
leftmost-shortest region, resuming the scan after the removed match — then
collapses runs of blank lines (`re.sub(r'\n\s*\n\s*\n+', '\n\n', ...)`) and
trims surrounding whitespace. -/

def openTag : List Char := "<think>".toList

def closeTag : List Char := "</think>".toList

/-- A `<think>…</think>` region is present: an occurrence of the opening tag
followed (anywhere later) by an occurrence of the closing tag. -/
def hasThinkRegionB (l : List Char) : Bool :=
  match findSub openTag l with
  | none => false
  | some i => (findSub closeTag (l.drop (i + 7))).isSome

def HasThinkRegion (l : List Char) : Prop :=
  ∃ a b c, l = a ++ openTag ++ b ++ closeTag ++ c

theorem hasThinkRegionB_iff (l : List Char) :
    hasThinkRegionB l = true ↔ HasThinkRegion l := by
  constructor
  · intro h
    unfold hasThinkRegionB at h
    rcases hopen : findSub openTag l with _ | i
    · rw [hopen] at h; simp at h
    · rw [hopen] at h
      obtain ⟨a', b', hab⟩ := (findSub_isSome_iff closeTag _).mp h
      have hdec := findSub_decomp openTag l i hopen
      refine ⟨l.take i, a', b', ?_⟩
      rw [show openTag.length = 7 from rfl] at hdec
      rw [hab] at hdec
      conv_lhs => rw [hdec]
      simp [List.append_assoc]
  · rintro ⟨a, b, c, rfl⟩
    unfold hasThinkRegionB
    have hsome : (findSub openTag (a ++ openTag ++ b ++ closeTag ++ c)).isSome := by
      rw [findSub_isSome_iff]
      exact ⟨a, b ++ closeTag ++ c, by simp [List.append_assoc]⟩
    rcases hopen : findSub openTag (a ++ openTag ++ b ++ closeTag ++ c) with _ | i
    · rw [hopen] at hsome; simp at hsome
    · have hfirst := findSub_first openTag _ i hopen a (b ++ closeTag ++ c)
        (by simp [List.append_assoc])
      have hsplit : (a ++ openTag ++ b ++ closeTag ++ c).drop (i + 7) =
          (a ++ openTag).drop (i + 7) ++ (b ++ closeTag ++ c) := by
        rw [show a ++ openTag ++ b ++ closeTag ++ c =
            (a ++ openTag) ++ (b ++ closeTag ++ c) by simp [List.append_assoc]]
        exact List.drop_append_of_le_length (by
          rw [List.length_append, show openTag.length = 7 from rfl]
          omega)
      show (findSub closeTag ((a ++ openTag ++ b ++ closeTag ++ c).drop (i + 7))).isSome = true
      rw [hsplit, findSub_isSome_iff]
      exact ⟨(a ++ openTag).drop (i + 7) ++ b, c, by simp [List.append_assoc]⟩

/-- `re.sub(r'<think>.*?</think>', '', text, flags=re.DOTALL)`: repeatedly
find the first opening tag with a closing tag after it, drop the enclosed
region, and continue after the match.  Each removal shortens the list by at
least 15 characters, so `l.length` is sufficient fuel. -/
def removeThinkRegions : Nat → List Char → List Char
  | 0, l => l
  | fuel + 1, l =>
    match findSub openTag l with
    | none => l
    | some i =>
      match findSub closeTag (l.drop (i + 7)) with
      | none => l
      | some j => l.take i ++ removeThinkRegions fuel (l.drop (i + 7 + j + 8))

def stripThink (l : List Char) : List Char := removeThinkRegions l.length l

theorem removeThinkRegions_of_no_region (fuel : Nat) (l : List Char)
    (h : hasThinkRegionB l = false) : removeThinkRegions fuel l = l := by
  cases fuel with
  | zero => rfl
  | succ f =>
    unfold hasThinkRegionB at h
    unfold removeThinkRegions
    rcases hopen : findSub openTag l with _ | i
    · rfl
    · rw [hopen] at h
      have h' : (findSub closeTag (l.drop (i + 7))).isSome = false := h
      show (match findSub closeTag (l.drop (i + 7)) with
        | none => l
        | some j => l.take i ++ removeThinkRegions f (l.drop (i + 7 + j + 8))) = l
      rcases hclose : findSub closeTag (l.drop (i + 7)) with _ | j
      · rfl
      · rw [hclose] at h'; simp at h'

theorem dropWhile_append_keep (p : Char → Bool) (a T : List Char)
    (hT : T.dropWhile p = T) :
    ∃ a₁, (a ++ T).dropWhile p = a₁ ++ T := by
  rw [List.dropWhile_append]
  by_cases he : (a.dropWhile p).isEmpty
  · rw [if_pos he, hT]
    exact ⟨[], rfl⟩
  · rw [if_neg he]
    exact ⟨a.dropWhile p, rfl⟩

/-- Trimming surrounding whitespace cannot delete a `<think>…</think>`
region: both tags start and end with non-whitespace characters. -/
theorem pyStrip_preserves_region (l : List Char) (h : HasThinkRegion l) :
    HasThinkRegion (pyStrip l) := by
  obtain ⟨a, b, c, rfl⟩ := h
  unfold pyStrip
  have hT : (openTag ++ (b ++ (closeTag ++ c))).dropWhile isPySpace =
      openTag ++ (b ++ (closeTag ++ c)) := by
    rw [show openTag ++ (b ++ (closeTag ++ c)) =
        '<' :: ("think>".toList ++ (b ++ (closeTag ++ c))) from rfl]
    rw [List.dropWhile_cons]
    simp [isPySpace]
  obtain ⟨a₁, ha₁⟩ := dropWhile_append_keep isPySpace a
    (openTag ++ (b ++ (closeTag ++ c))) hT
  rw [show a ++ openTag ++ b ++ closeTag ++ c =
      a ++ (openTag ++ (b ++ (closeTag ++ c))) by simp [List.append_assoc], ha₁]
  have hrev : (a₁ ++ (openTag ++ (b ++ (closeTag ++ c)))).reverse =
      c.reverse ++ (closeTag.reverse ++ (b.reverse ++ (openTag.reverse ++ a₁.reverse))) := by
    simp [List.reverse_append, List.append_assoc]
  rw [hrev]
  have hU : (closeTag.reverse ++ (b.reverse ++ (openTag.reverse ++ a₁.reverse))).dropWhile
      isPySpace = closeTag.reverse ++ (b.reverse ++ (openTag.reverse ++ a₁.reverse)) := by
    rw [show closeTag.reverse ++ (b.reverse ++ (openTag.reverse ++ a₁.reverse)) =
        '>' :: ("</think".toList.reverse ++ (b.reverse ++ (openTag.reverse ++ a₁.reverse)))
        from rfl]
    rw [List.dropWhile_cons]
    simp [isPySpace]
  obtain ⟨c₁, hc₁⟩ := dropWhile_append_keep isPySpace c.reverse
    (closeTag.reverse ++ (b.reverse ++ (openTag.reverse ++ a₁.reverse))) hU
  rw [hc₁]
  refine ⟨a₁, b, c₁.reverse, ?_⟩
  simp [List.reverse_append, List.append_assoc]

/-- `re.sub(r'\n\s*\n\s*\n+', '\n\n', text)` (text_utils.py line 31): inside
every maximal whitespace run containing at least three newlines, the segment
from the run's first to its last newline is replaced by exactly two
newlines. -/
def collapseBlankLines : Nat → List Char → List Char
  | 0, l => l
  | _fuel + 1, [] => []
  | fuel + 1, ch :: rest =>
    if ch = '\n' then
      let run := (ch :: rest).takeWhile isPySpace
      if 3 ≤ run.count '\n' then
        let keep := run.reverse.dropWhile (fun d => !(d = '\n'))
        '\n' :: '\n' :: collapseBlankLines fuel ((ch :: rest).drop keep.length)
      else ch :: collapseBlankLines fuel rest
    else ch :: collapseBlankLines fuel rest

/-- `strip_thinking_content` (text_utils.py lines 8-34): remove think
regions, collapse blank-line runs, strip surrounding whitespace. -/
def strip_thinking_content (l : List Char) : List Char :=
  pyStrip (collapseBlankLines (stripThink l).length (stripThink l))

/-- `AIService._generate_summary_for_file` (ai_service.py lines 239-243):
`raw = response.content.strip()`, then `summary =
strip_thinking_content(raw)` is what `update_summary` persists. -/
def persistedSummary (raw : List Char) : List Char :=
  strip_thinking_content (pyStrip raw)

/-- `AIService.generate_repository_overview` (ai_service.py line 447):
`overview = response.content.strip()` is returned as-is and persisted by
`save_overview` — no `strip_thinking_content` call on this path. -/
def persistedOverview (raw : List Char) : List Char :=
  pyStrip raw

/-- C7 (counterexample): an overview response carrying a think region is
persisted with the region intact, while the same response on the per-file
summary path has it removed. -/
theorem overview_keeps_think_counterexample :
    persistedOverview "<think>hidden</think>Overview.".toList =
      "<think>hidden</think>Overview.".toList ∧
    hasThinkRegionB (persistedOverview "<think>hidden</think>Overview.".toList) = true ∧
    persistedSummary "<think>hidden</think>Overview.".toList = "Overview.".toList := by
  refine ⟨by decide, by decide, by decide⟩

/-- C7 (amended): the per-file summary is persisted through
`strip_thinking_content`, which removes every `<think>…</think>` region (and
is the identity when no region is present); the repository overview is
persisted with only surrounding whitespace trimmed, so any think region in
it survives persistence. -/
theorem think_stripping_at_persistence (raw : List Char) :
    persistedSummary raw = strip_thinking_content (pyStrip raw) ∧
    persistedOverview raw = pyStrip raw ∧
    (hasThinkRegionB raw = false → stripThink raw = raw) ∧
    (hasThinkRegionB raw = true → hasThinkRegionB (persistedOverview raw) = true) := by
  refine ⟨rfl, rfl, ?_, ?_⟩
  · intro h
    exact removeThinkRegions_of_no_region _ _ h
  · intro h
    rw [hasThinkRegionB_iff]
    exact pyStrip_preserves_region raw ((hasThinkRegionB_iff raw).mp h)

/-- Concrete instantiation of `think_stripping_at_persistence`. -/
theorem think_stripping_at_persistence_witness :
    hasThinkRegionB
      (persistedOverview "<think>plan</think>The overview text.".toList) = true :=
  (think_stripping_at_persistence
      "<think>plan</think>The overview text.".toList).2.2.2 (by decide)

/-! ## The streaming `<think>` filter of `stream_query`

`QueryService.stream_query` (query_service.py lines 344-426) maintains a
`buffer` and an `inside_think_tag` flag per iteration.  On each content
delta the buffer is extended and an inner `while True` loop runs:

* outside a think block: on finding `<think>`, emit the prefix (if
  non-empty), enter the block, and continue on the remainder; otherwise
  emit all but the last 7 characters (held back in case `<think>` is split
  across deltas) and break;
* inside a think block: on finding `</think>`, leave the block and continue
  on the remainder; otherwise set `buffer = ""` and break — discarding any
  partial `</think>` prefix the buffer may end with;
* at end of stream, flush the buffer if non-empty and not inside a block.

Each non-breaking loop iteration removes at least 7 characters from the
buffer, so `buffer.length + 1` is sufficient fuel. -/

structure ThinkFilterState where
  buffer : List Char
  insideThink : Bool
deriving DecidableEq, Repr

def thinkFilterLoop : Nat → ThinkFilterState → List (List Char) × ThinkFilterState
  | 0, st => ([], st)
  | fuel + 1, st =>
    if st.insideThink = false then
      match findSub openTag st.buffer with
      | some i =>
        let emitted := if 0 < i then [st.buffer.take i] else []
        let res := thinkFilterLoop fuel ⟨st.buffer.drop (i + 7), true⟩
        (emitted ++ res.1, res.2)
      | none =>
        if 7 < st.buffer.length then
          ([st.buffer.take (st.buffer.length - 7)],
           ⟨st.buffer.drop (st.buffer.length - 7), st.insideThink⟩)
        else ([], st)
    else
      match findSub closeTag st.buffer with
      | some j => thinkFilterLoop fuel ⟨st.buffer.drop (j + 8), false⟩
      | none => ([], ⟨[], st.insideThink⟩)

/-- Processing of one content delta (lines 352-395): append to the buffer,
run the loop; returns the `answer_chunk` contents emitted for this delta. -/
def processContentDelta (st : ThinkFilterState) (delta : List Char) :
    List (List Char) × ThinkFilterState :=
  thinkFilterLoop ((st.buffer ++ delta).length + 1) ⟨st.buffer ++ delta, st.insideThink⟩

/-- The `answer_chunk` contents emitted for one full content stream,
including the end-of-stream flush (lines 421-426). -/
def runThinkFilter (deltas : List (List Char)) : List (List Char) :=
  let res := deltas.foldl
    (fun acc delta =>
      let r := processContentDelta acc.2 delta
      (acc.1 ++ r.1, r.2))
    (([], ⟨[], false⟩) : List (List Char) × ThinkFilterState)
  if res.2.insideThink = false ∧ res.2.buffer ≠ [] then res.1 ++ [res.2.buffer]
  else res.1

/-- C4: when the closing `</think>` tag is split across two deltas the
filter never recognises it — inside a think block the buffer (and with it
the partial `"</thi"`) is discarded, so the filter stays in thinking mode
and drops all subsequent content.  For the stream
`["<think>secret</thi", "nk>answer"]` no `answer_chunk` at all is emitted,
although the streamed content with its think region removed (the repo's own
whole-text semantics, `strip_thinking_content`'s regex) is `"answer"`. -/
theorem stream_filter_drops_split_close :
    runThinkFilter ["<think>secret</thi".toList, "nk>answer".toList] = [] ∧
    stripThink ("<think>secret</thi".toList ++ "nk>answer".toList) =
      "answer".toList ∧
    runThinkFilter ["<think>secret</think>answer".toList] = ["answer".toList] := by
  refine ⟨by decide, by decide, by decide⟩

/-! ## `stream_query`: tool-call assembly, events, sources

`QueryService.stream_query` (query_service.py lines 326-563) runs up to 5
LLM iterations.  Each iteration consumes one LLM stream: content deltas feed
the think filter above (emitting `answer_chunk` events as they stream), and
tool-call deltas are assembled by index (lines 398-418).  After the stream:

* if tool calls were collected, for each one a `tool_call` event is emitted,
  the tool is executed, a `tool_result` event with the result count is
  emitted, and the source list is extended (lines 429-496) — then the next
  iteration begins;
* otherwise a single `done` event carrying the accumulated sources and tool
  calls is emitted and the generator returns (lines 498-551);
* if all 5 iterations collected tool calls, an apology `answer_chunk` and a
  `done` event are emitted (lines 553-563).

The LLM is an oracle: a run is modelled by the list of per-iteration delta
streams, and tool execution by a function from assembled calls to results.
A delta carrying both content and tool-call fragments behaves as a content
delta followed by a tool delta, matching the two sequential `if`s at lines
352 and 398.  The model covers exception-free runs; any exception instead
ends the stream with a single terminal `error` event (lines 565-570). -/

structure SourceRec where
  filePath : String
  lineStart : Option Nat
  lineEnd : Option Nat
deriving DecidableEq, Repr

inductive Event where
  | toolCall (tool : String) (args : String)
  | toolResult (tool : String) (resultCount : Nat)
  | answerChunk (content : List Char)
  | done (sources : List SourceRec) (toolsMade : List String)
  | error
deriving DecidableEq, Repr

structure ToolCallRec where
  id : String
  name : String
  args : String
deriving DecidableEq, Repr

def emptyToolCall : ToolCallRec := ⟨"", "", ""⟩

/-- One element of `delta.tool_calls`: an index plus optional fragments. -/
structure ToolCallDelta where
  index : Nat
  id : Option String
  name : Option String
  args : Option String
deriving DecidableEq, Repr

/-- Lines 400-407: extend `collected_tool_calls` with empty records until
the index is in range. -/
def padToolCalls (acc : List ToolCallRec) (n : Nat) : List ToolCallRec :=
  acc ++ List.replicate (n + 1 - acc.length) emptyToolCall

/-- Lines 409-418: update the record at the delta's index; `id` and `name`
are replaced when the fragment is truthy (non-empty), `arguments` fragments
are concatenated. -/
def applyToolCallDelta (acc : List ToolCallRec) (d : ToolCallDelta) : List ToolCallRec :=
  let padded := padToolCalls acc d.index
  let old := padded.getD d.index emptyToolCall
  let upd : ToolCallRec :=
    { id := match d.id with
        | some s => if s = "" then old.id else s
        | none => old.id
      name := match d.name with
        | some s => if s = "" then old.name else s
        | none => old.name
      args := match d.args with
        | some s => if s = "" then old.args else old.args ++ s
        | none => old.args }
  padded.set d.index upd

inductive StreamDelta where
  | content (s : List Char)
  | tool (d : ToolCallDelta)
deriving DecidableEq, Repr

structure TurnResult where
  chunks : List (List Char)
  toolCalls : List ToolCallRec
deriving DecidableEq, Repr

/-- Consuming one LLM stream (lines 339-426): think-filtered content chunks
plus assembled tool calls, with the end-of-stream flush. -/
def processTurn (deltas : List StreamDelta) : TurnResult :=
  let res := deltas.foldl
    (fun (acc : ThinkFilterState × List (List Char) × List ToolCallRec) d =>
      match d with
      | .content s =>
        let r := processContentDelta acc.1 s
        (r.2, acc.2.1 ++ r.1, acc.2.2)
      | .tool td => (acc.1, acc.2.1, applyToolCallDelta acc.2.2 td))
    ((⟨[], false⟩ : ThinkFilterState), ([] : List (List Char)), ([] : List ToolCallRec))
  if res.1.insideThink = false ∧ res.1.buffer ≠ [] then
    ⟨res.2.1 ++ [res.1.buffer], res.2.2⟩
  else ⟨res.2.1, res.2.2⟩

structure ToolResultItem where
  filePath : Option String
  lineStart : Option Nat
  lineEnd : Option Nat
deriving DecidableEq, Repr

/-- A tool execution result: `search_code`/`search_files` return lists, the
other tools dicts (whose `path` key feeds the sources). -/
inductive ToolRet where
  | listRet (items : List ToolResultItem)
  | dictRet (path : Option String)
deriving DecidableEq, Repr

/-- Line 460: `len(result)` for lists, `1` otherwise. -/
def toolRetCount : ToolRet → Nat
  | .listRet items => items.length
  | .dictRet _ => 1

/-- Lines 477-486: one source per list element with a truthy `file_path`
(keeping its line range); for dict results the truthy `path`. -/
def toolRetSources : ToolRet → List SourceRec
  | .listRet items => items.filterMap fun it =>
      match it.filePath with
      | some p => if p = "" then none else some ⟨p, it.lineStart, it.lineEnd⟩
      | none => none
  | .dictRet p =>
      match p with
      | some p => if p = "" then [] else [⟨p, none, none⟩]
      | none => []

/-- Line 557. -/
def apologyText : List Char :=
  ("I apologize, but I couldn\x27t generate a complete answer after multiple " ++
   "attempts. Please try rephrasing your question.").toList

/-- The iteration loop (lines 326-563).  `turns` supplies one delta stream
per LLM call (an exhausted list behaves as an empty stream, which carries no
tool calls and therefore ends the run); `exec` is the tool-execution
oracle. -/
def runIterations (exec : ToolCallRec → ToolRet) :
    Nat → List (List StreamDelta) → List SourceRec → List String → List Event
  | 0, _, sources, toolsMade =>
    [.answerChunk apologyText, .done sources toolsMade]
  | fuel + 1, turns, sources, toolsMade =>
    let tr := processTurn (turns.headD [])
    let chunkEvents := tr.chunks.map Event.answerChunk
    if tr.toolCalls.isEmpty then
      chunkEvents ++ [.done sources toolsMade]
    else
      let toolEvents := tr.toolCalls.flatMap fun tc =>
        [Event.toolCall tc.name tc.args, Event.toolResult tc.name (toolRetCount (exec tc))]
      let newSources := sources ++ tr.toolCalls.flatMap fun tc => toolRetSources (exec tc)
      let newTools := toolsMade ++ tr.toolCalls.map (·.name)
      chunkEvents ++ toolEvents ++ runIterations exec fuel turns.tail newSources newTools

/-- The full event stream of one `stream_query` run (`max_iterations = 5`,
line 325). -/
def streamQueryEvents (turns : List (List StreamDelta)) (exec : ToolCallRec → ToolRet) :
    List Event :=
  runIterations exec 5 turns [] []

/-- Zero or more `answer_chunk` events followed by exactly one terminal. -/
def chunksThenTerminalB : List Event → Bool
  | .answerChunk _ :: rest => chunksThenTerminalB rest
  | [.done _ _] => true
  | [.error] => true
  | _ => false

/-- The ordering asserted by the spec: zero or more `tool_call`/`tool_result`
pairs, then zero or more `answer_chunk` events, then exactly one terminal
`done` or `error`. -/
def claimedOrderB : List Event → Bool
  | .toolCall _ _ :: .toolResult _ _ :: rest => claimedOrderB rest
  | evs => chunksThenTerminalB evs

/-- The ordering the code actually guarantees: any interleaving of
`answer_chunk` events and same-tool `tool_call`/`tool_result` pairs, ended
by exactly one terminal event at the last position. -/
def wellFormedEventsB : List Event → Bool
  | [.done _ _] => true
  | [.error] => true
  | .answerChunk _ :: rest => wellFormedEventsB rest
  | .toolCall n _ :: .toolResult n' _ :: rest => (n == n') && wellFormedEventsB rest
  | _ => false

theorem wellFormedEventsB_chunk_cons (s : List Char) (rest : List Event) :
    wellFormedEventsB (.answerChunk s :: rest) = wellFormedEventsB rest := rfl

theorem wellFormedEventsB_pair_cons (n a n' : String) (k : Nat) (rest : List Event) :
    wellFormedEventsB (.toolCall n a :: .toolResult n' k :: rest) =
      ((n == n') && wellFormedEventsB rest) := rfl

theorem wellFormedEventsB_chunks (cs : List (List Char)) (rest : List Event) :
    wellFormedEventsB (cs.map Event.answerChunk ++ rest) = wellFormedEventsB rest := by
  induction cs with
  | nil => rfl
  | cons c cs ih =>
    rw [List.map_cons, List.cons_append, wellFormedEventsB_chunk_cons]
    exact ih

theorem wellFormedEventsB_pairs (exec : ToolCallRec → ToolRet)
    (tcs : List ToolCallRec) (rest : List Event) :
    wellFormedEventsB
      ((tcs.flatMap fun tc =>
          [Event.toolCall tc.name tc.args,
           Event.toolResult tc.name (toolRetCount (exec tc))]) ++ rest) =
      wellFormedEventsB rest := by
  induction tcs with
  | nil => rfl
  | cons tc tcs ih =>
    rw [List.flatMap_cons, List.append_assoc, List.cons_append, List.cons_append,
      List.nil_append, wellFormedEventsB_pair_cons, ih]
    simp

theorem runIterations_wellFormed (exec : ToolCallRec → ToolRet) :
    ∀ fuel turns sources toolsMade,
      wellFormedEventsB (runIterations exec fuel turns sources toolsMade) = true := by
  intro fuel
  induction fuel with
  | zero => intro turns sources toolsMade; rfl
  | succ f ih =>
    intro turns sources toolsMade
    simp only [runIterations]
    by_cases h : (processTurn (turns.headD [])).toolCalls.isEmpty = true
    · rw [if_pos h, wellFormedEventsB_chunks]
      rfl
    · rw [if_neg h, List.append_assoc, wellFormedEventsB_chunks, wellFormedEventsB_pairs]
      exact ih _ _ _

/-- C8 (counterexample): when an LLM turn streams content alongside its tool
calls, `answer_chunk` events are emitted before the `tool_call` events of
the same run, so the claimed ordering (all pairs before all chunks) fails. -/
theorem stream_event_order_counterexample :
    streamQueryEvents
      [[.content "Let me check the code.".toList,
        .tool ⟨0, some "call_1", some "search_code", some "\x7b\"query\":\"auth\"\x7d"⟩],
       [.content "Answer.".toList]]
      (fun _ => .listRet [⟨some "src/auth.py", some 10, some 20⟩]) =
      [.answerChunk "Let me check th".toList,
       .answerChunk "e code.".toList,
       .toolCall "search_code" "\x7b\"query\":\"auth\"\x7d",
       .toolResult "search_code" 1,
       .answerChunk "Answer.".toList,
       .done [⟨"src/auth.py", some 10, some 20⟩] ["search_code"]] ∧
    claimedOrderB (streamQueryEvents
      [[.content "Let me check the code.".toList,
        .tool ⟨0, some "call_1", some "search_code", some "\x7b\"query\":\"auth\"\x7d"⟩],
       [.content "Answer.".toList]]
      (fun _ => .listRet [⟨some "src/auth.py", some 10, some 20⟩])) = false := by
  refine ⟨by decide, by decide⟩

/-- C8 (amended): every exception-free `stream_query` run emits an
interleaving of `answer_chunk` events and adjacent same-tool
`tool_call`/`tool_result` pairs, terminated by exactly one `done` event in
the last position; `answer_chunk` events of an iteration that also collects
tool calls precede that iteration's pairs. -/
theorem stream_events_well_formed (turns : List (List StreamDelta))
    (exec : ToolCallRec → ToolRet) :
    wellFormedEventsB (streamQueryEvents turns exec) = true :=
  runIterations_wellFormed exec 5 turns [] []

/-- The sources a run accumulates: per executed tool call, in order,
`toolRetSources` of its result (no de-duplication anywhere). -/
def runSourcesSpec (exec : ToolCallRec → ToolRet) :
    Nat → List (List StreamDelta) → List SourceRec
  | 0, _ => []
  | fuel + 1, turns =>
    let tr := processTurn (turns.headD [])
    if tr.toolCalls.isEmpty then []
    else (tr.toolCalls.flatMap fun tc => toolRetSources (exec tc)) ++
      runSourcesSpec exec fuel turns.tail

/-- The payload of the final `done` event, when the stream ends with one. -/
def doneSources (evs : List Event) : Option (List SourceRec) :=
  match evs.getLast? with
  | some (.done s _) => some s
  | _ => none

theorem doneSources_append (xs rest : List Event) (h : rest ≠ []) :
    doneSources (xs ++ rest) = doneSources rest := by
  unfold doneSources
  rw [List.getLast?_append]
  obtain ⟨x, hx⟩ := Option.isSome_iff_exists.mp (List.getLast?_isSome.mpr h)
  rw [hx]
  rfl

theorem runIterations_doneSources (exec : ToolCallRec → ToolRet) :
    ∀ fuel turns sources toolsMade,
      doneSources (runIterations exec fuel turns sources toolsMade) =
        some (sources ++ runSourcesSpec exec fuel turns) := by
  intro fuel
  induction fuel with
  | zero =>
    intro turns sources toolsMade
    simp [runIterations, runSourcesSpec, doneSources]
  | succ f ih =>
    intro turns sources toolsMade
    simp only [runIterations, runSourcesSpec]
    by_cases h : (processTurn (turns.headD [])).toolCalls.isEmpty = true
    · rw [if_pos h, if_pos h, doneSources_append _ _ (by simp)]
      simp [doneSources]
    · rw [if_neg h, if_neg h]
      have hrec := ih turns.tail
        (sources ++ (processTurn (turns.headD [])).toolCalls.flatMap
          fun tc => toolRetSources (exec tc))
        (toolsMade ++ (processTurn (turns.headD [])).toolCalls.map (·.name))
      have hne : runIterations exec f turns.tail
          (sources ++ (processTurn (turns.headD [])).toolCalls.flatMap
            fun tc => toolRetSources (exec tc))
          (toolsMade ++ (processTurn (turns.headD [])).toolCalls.map (·.name)) ≠ [] := by
        intro hnil
        rw [hnil] at hrec
        simp [doneSources] at hrec
      rw [List.append_assoc, doneSources_append _ _ (by
          intro hnil
          rcases List.append_eq_nil.mp hnil with ⟨_, h2⟩
          exact hne h2),
        doneSources_append _ _ hne, hrec]
      simp [List.append_assoc]

/-- No two equal entries. -/
def noDupSourcesB : List SourceRec → Bool
  | [] => true
  | s :: rest => !(rest.any fun t => decide (t = s)) && noDupSourcesB rest

/-- C9 (counterexample): a tool result containing the same file (same line
range) twice puts two identical entries into `done.sources`; nothing in
`stream_query` de-duplicates the source list. -/
theorem done_sources_duplicate_counterexample :
    doneSources (streamQueryEvents
      [[.tool ⟨0, some "call_1", some "search_code", some "\x7b\x7d"⟩],
       [.content "Answer.".toList]]
      (fun _ => .listRet [⟨some "src/auth.py", some 10, some 20⟩,
                          ⟨some "src/auth.py", some 10, some 20⟩])) =
      some [⟨"src/auth.py", some 10, some 20⟩, ⟨"src/auth.py", some 10, some 20⟩] ∧
    noDupSourcesB [⟨"src/auth.py", some 10, some 20⟩,
                   ⟨"src/auth.py", some 10, some 20⟩] = false := by
  refine ⟨by decide, by decide⟩

/-- C9 (amended): the final `done` event carries exactly the concatenation,
in execution order, of one source entry per list-result element bearing a
truthy `file_path` (and per dict result bearing a truthy `path`) — with
duplicates retained: the list is not de-duplicated. -/
theorem stream_done_sources (turns : List (List StreamDelta))
    (exec : ToolCallRec → ToolRet) :
    doneSources (streamQueryEvents turns exec) =
      some (runSourcesSpec exec 5 turns) := by
  have h := runIterations_doneSources exec 5 turns [] []
  simpa using h

/-! ## Hybrid scoring in `_vector_search`

`VectorSearchService._vector_search` (vector_search_service.py lines
508-552): for every candidate returned by the ANN stage, normalise the
full-text score (`min(text_score / 3, 1)`), combine it with the vector score
(`hybrid_score(..., vector_weight=0.7, keyword_weight=0.3)`), apply the
filename boost (`apply_filename_boost(..., boost_factor=1.3)`), store the
result as `final_score`, and re-sort the list by `final_score` descending
(`results.sort(key=..., reverse=True)` — a stable sort).

`hybrid_score` and `KeywordScorer.apply_filename_boost` live in
`app/services/keyword_scorer.py`, which is not present under src/ (only
its import statement and call sites are); they are modelled from the spec
below.  Scores are rationals. -/

/-- Modelled from the spec: `hybrid_score` from the absent
app/services/keyword_scorer.py — the weighted combination
`vector_weight · vector_score + keyword_weight · keyword_score`. -/
def hybrid_score (vectorScore keywordScore vectorWeight keywordWeight : ℚ) : ℚ :=
  vectorWeight * vectorScore + keywordWeight * keywordScore

/-- Modelled from the spec: `KeywordScorer.apply_filename_boost` from the
absent app/services/keyword_scorer.py — multiply the base score by the boost
factor iff some query token (case-insensitive, word-boundary) occurs in the
file path.  The tokenisation/boundary test is carried per candidate as the
`queryTokenInPath` flag. -/
def apply_filename_boost (queryTokenInPath : Bool) (baseScore boostFactor : ℚ) : ℚ :=
  if queryTokenInPath then baseScore * boostFactor else baseScore

/-- One ANN candidate entering the rescoring loop; `textScore` is the raw
full-text score for the candidate's file (`0.0` when absent from the text
index, line 521). -/
structure SearchCandidate where
  fileId : String
  path : String
  vectorScore : ℚ
  textScore : ℚ
  queryTokenInPath : Bool
deriving DecidableEq, Repr

structure ScoredCandidate where
  cand : SearchCandidate
  finalScore : ℚ
deriving DecidableEq, Repr

/-- Lines 515-549: normalise, combine 70/30, boost 1.3. -/
def scoreCandidate (c : SearchCandidate) : ScoredCandidate :=
  let normalizedTextScore := min (c.textScore / 3) 1
  let hybrid := hybrid_score c.vectorScore normalizedTextScore (7/10) (3/10)
  let final := apply_filename_boost c.queryTokenInPath hybrid (13/10)
  ⟨c, final⟩

def scoredLe (a b : ScoredCandidate) : Bool := decide (b.finalScore ≤ a.finalScore)

/-- Lines 515-552: score every candidate, then
`results.sort(key=lambda x: x['final_score'], reverse=True)`. -/
def rerankByFinalScore (results : List SearchCandidate) : List ScoredCandidate :=
  (results.map scoreCandidate).mergeSort scoredLe

/-- C5: every candidate's final score is
`0.7 · vector_score + 0.3 · min(text_score / 3, 1)`, multiplied by `1.3` iff
a query token occurs in the file path; the output is the input re-sorted by
final score in descending order (a permutation, sorted non-increasingly). -/
theorem hybrid_final_score (results : List SearchCandidate) :
    (∀ sc ∈ rerankByFinalScore results,
        sc.finalScore =
          (if sc.cand.queryTokenInPath then (13 : ℚ)/10 else 1) *
            ((7/10) * sc.cand.vectorScore + (3/10) * min (sc.cand.textScore / 3) 1)) ∧
    List.Pairwise (fun a b : ScoredCandidate => b.finalScore ≤ a.finalScore)
      (rerankByFinalScore results) ∧
    List.Perm ((rerankByFinalScore results).map (·.cand)) results := by
  refine ⟨?_, ?_, ?_⟩
  · intro sc hsc
    have hmem : sc ∈ (results.map scoreCandidate).mergeSort scoredLe := hsc
    have hmem' : sc ∈ results.map scoreCandidate :=
      (List.mergeSort_perm (results.map scoreCandidate) scoredLe).mem_iff.mp hmem
    obtain ⟨c, _, rfl⟩ := List.mem_map.mp hmem'
    show apply_filename_boost c.queryTokenInPath
        (hybrid_score c.vectorScore (min (c.textScore / 3) 1) (7/10) (3/10)) (13/10) =
      (if c.queryTokenInPath then (13 : ℚ)/10 else 1) *
        ((7/10) * c.vectorScore + (3/10) * min (c.textScore / 3) 1)
    unfold apply_filename_boost hybrid_score
    by_cases hb : c.queryTokenInPath
    · rw [if_pos hb, if_pos hb]
      ring
    · rw [if_neg hb, if_neg hb]
      ring
  · have htrans : ∀ a b c : ScoredCandidate,
        scoredLe a b = true → scoredLe b c = true → scoredLe a c = true := by
      intro a b c hab hbc
      simp only [scoredLe, decide_eq_true_eq] at hab hbc ⊢
      exact le_trans hbc hab
    have htotal : ∀ a b : ScoredCandidate, (scoredLe a b || scoredLe b a) = true := by
      intro a b
      simp only [scoredLe, Bool.or_eq_true, decide_eq_true_eq]
      exact le_total b.finalScore a.finalScore
    have hs := List.sorted_mergeSort htrans htotal (results.map scoreCandidate)
    exact hs.imp (fun hab => by simpa [scoredLe] using hab)
  · have hperm := (List.mergeSort_perm (results.map scoreCandidate) scoredLe).map
      (fun sc : ScoredCandidate => sc.cand)
    have hmm : (results.map scoreCandidate).map (fun sc : ScoredCandidate => sc.cand) =
        results := by
      rw [List.map_map]
      have hid : ((fun sc : ScoredCandidate => sc.cand) ∘ scoreCandidate) = id := by
        funext c
        rfl
      rw [hid, List.map_id]
    rw [hmm] at hperm
    exact hperm

/-- Concrete instantiation of `hybrid_final_score`. -/
theorem hybrid_final_score_witness :
    List.Pairwise (fun a b : ScoredCandidate => b.finalScore ≤ a.finalScore)
      (rerankByFinalScore [⟨"f1", "src/auth.py", 4/5, 6, true⟩]) :=
  (hybrid_final_score [⟨"f1", "src/auth.py", 4/5, 6, true⟩]).2.1

/-! ## `find_function`: exact lookup before vector fallback

`VectorSearchService.find_function` (vector_search_service.py lines 298-364)
first runs `_regex_search_function` (lines 732-794): a `find_one` on
`{repo_id, "functions.name": name}` (plus the normalised `path` when given),
then a scan of that file's `functions` for the matching name, extracting the
source lines from the stored content.  Only when this returns nothing does
it fall back to `search_code` (which embeds the query via the embedding
API).  The store is modelled as a list of file documents; `find_one` returns
the first matching document. -/

structure FunctionRec where
  name : String
  lineStart : Nat
  lineEnd : Nat
  parentClass : Option String
deriving DecidableEq, Repr

structure FileDoc where
  fileId : String
  repoId : String
  path : String
  language : String
  summary : String
  /-- The stored `content`, pre-split on newlines (`content.split('\n')`),
  as `_extract_code_by_lines` consumes it. -/
  contentLines : List String
  functions : List FunctionRec
deriving DecidableEq, Repr

/-- `EmbeddingService._extract_code_by_lines` (embedding_service.py lines
263-266): `'\n'.join(lines[start-1:end])`. -/
def extractCodeByLines (lines : List String) (startLine endLine : Nat) : String :=
  String.intercalate "\n" ((lines.drop (startLine - 1)).take (endLine - (startLine - 1)))

/-- `file_path.lstrip('/')`. -/
def lstripSlash (p : String) : String :=
  String.mk (p.toList.dropWhile (fun ch => ch = '/'))

/-- The Mongo query of `_regex_search_function` (lines 753-760): matching
`repo_id`, a `functions.name` element equal to the target, and the
normalised path when one was supplied. -/
def fileMatchesQuery (repoId functionName : String) (path? : Option String)
    (f : FileDoc) : Bool :=
  f.repoId == repoId && f.functions.any (fun fn => fn.name == functionName) &&
    match path? with
    | some p => f.path == lstripSlash p
    | none => true

structure FunctionSearchResult where
  fileId : String
  filePath : String
  name : String
  code : String
  lineStart : Nat
  lineEnd : Nat
  parentClass : Option String
deriving DecidableEq, Repr

/-- `_regex_search_function` (lines 732-794). -/
def regexSearchFunction (db : List FileDoc) (repoId functionName : String)
    (path? : Option String) : Option FunctionSearchResult :=
  match db.find? (fileMatchesQuery repoId functionName path?) with
  | none => none
  | some file =>
    match file.functions.find? (fun fn => fn.name == functionName) with
    | none => none
    | some fn =>
      some ⟨file.fileId, file.path, fn.name,
        extractCodeByLines file.contentLines fn.lineStart fn.lineEnd,
        fn.lineStart, fn.lineEnd, fn.parentClass⟩

/-- `find_function` (lines 298-364).  The vector fallback (lines 329-357)
embeds the query through the embedding API; it is abstracted as an oracle,
and the returned flag records whether it ran. -/
def find_function (db : List FileDoc) (repoId functionName : String)
    (path? : Option String) (vectorFallback : Unit → Option FunctionSearchResult) :
    Option FunctionSearchResult × Bool :=
  match regexSearchFunction db repoId functionName path? with
  | some r => (some r, false)
  | none => (vectorFallback (), true)

/-- C6: whenever some file of the repository has a function whose name
equals the query (with the path constraint honoured when given),
`find_function` returns that function's record — name, file path, line
range, and source extracted from the stored content — without running the
vector fallback, hence without calling `search_code` or the embedding
API. -/
theorem find_function_exact_match (db : List FileDoc) (repoId functionName : String)
    (path? : Option String) (vectorFallback : Unit → Option FunctionSearchResult)
    (h : ∃ f ∈ db, fileMatchesQuery repoId functionName path? f = true) :
    (find_function db repoId functionName path? vectorFallback).2 = false ∧
    ∃ file ∈ db, ∃ fn ∈ file.functions, fn.name = functionName ∧
      (find_function db repoId functionName path? vectorFallback).1 =
        some ⟨file.fileId, file.path, fn.name,
          extractCodeByLines file.contentLines fn.lineStart fn.lineEnd,
          fn.lineStart, fn.lineEnd, fn.parentClass⟩ := by
  obtain ⟨f, hf, hmatch⟩ := h
  have hsome : (db.find? (fileMatchesQuery repoId functionName path?)).isSome := by
    rw [List.find?_isSome]
    exact ⟨f, hf, hmatch⟩
  rcases hfind : db.find? (fileMatchesQuery repoId functionName path?) with _ | file
  · rw [hfind] at hsome; simp at hsome
  · have hfileMem : file ∈ db := List.mem_of_find?_eq_some hfind
    have hfileMatch : fileMatchesQuery repoId functionName path? file = true :=
      List.find?_some hfind
    have hfn : (file.functions.find? (fun fn => fn.name == functionName)).isSome := by
      rw [List.find?_isSome]
      have hany : file.functions.any (fun fn => fn.name == functionName) = true := by
        unfold fileMatchesQuery at hfileMatch
        simp only [Bool.and_eq_true] at hfileMatch
        exact hfileMatch.1.2
      obtain ⟨fn, hfnMem, hfnName⟩ := List.any_eq_true.mp hany
      exact ⟨fn, hfnMem, hfnName⟩
    rcases hfind2 : file.functions.find? (fun fn => fn.name == functionName) with _ | fn
    · rw [hfind2] at hfn; simp at hfn
    · have hfnMem : fn ∈ file.functions := List.mem_of_find?_eq_some hfind2
      have hfnName : fn.name = functionName := by
        have := List.find?_some hfind2
        simpa using this
      have hreg : regexSearchFunction db repoId functionName path? =
          some ⟨file.fileId, file.path, fn.name,
            extractCodeByLines file.contentLines fn.lineStart fn.lineEnd,
            fn.lineStart, fn.lineEnd, fn.parentClass⟩ := by
        unfold regexSearchFunction
        rw [hfind]
        show (match file.functions.find? (fun fn => fn.name == functionName) with
          | none => none
          | some fn =>
            some (⟨file.fileId, file.path, fn.name,
              extractCodeByLines file.contentLines fn.lineStart fn.lineEnd,
              fn.lineStart, fn.lineEnd, fn.parentClass⟩ : FunctionSearchResult)) = _
        rw [hfind2]
      constructor
      · unfold find_function
        rw [hreg]
      · refine ⟨file, hfileMem, fn, hfnMem, hfnName, ?_⟩
        unfold find_function
        rw [hreg]

/-- Concrete instantiation of `find_function_exact_match`: a repository with
one file defining `validateToken` returns it via the exact lookup, with the
fallback flag false. -/
theorem find_function_exact_match_witness :
    (find_function
      [⟨"f1", "r1", "src/auth.py", "python", "",
        ["line1", "def validateToken():", "    return True"],
        [⟨"validateToken", 2, 3, none⟩]⟩]
      "r1" "validateToken" none (fun _ => none)).2 = false :=
  (find_function_exact_match
    [⟨"f1", "r1", "src/auth.py", "python", "",
      ["line1", "def validateToken():", "    return True"],
      [⟨"validateToken", 2, 3, none⟩]⟩]
    "r1" "validateToken" none (fun _ => none)
    ⟨⟨"f1", "r1", "src/auth.py", "python", "",
      ["line1", "def validateToken():", "    return True"],
      [⟨"validateToken", 2, 3, none⟩]⟩, by decide, by decide⟩).1

/-! ## `PythonParser`: flat functions versus nested classes

`PythonParser` (parsers/python_parser.py) extracts, from the `ast` of a
module:

* `_extract_classes` (lines 110-162): every `ClassDef` found by `ast.walk`,
  with `methods` the `FunctionDef`/`AsyncFunctionDef` nodes that are
  *direct* children of the class body;
* `_extract_functions` (lines 54-108): every `FunctionDef`/`AsyncFunctionDef`
  found by `ast.walk` — at any nesting depth — with `parent_class` looked up
  in `class_ranges`, a per-line dict filled class by class (later classes
  overwrite earlier ones on shared lines), and `is_method` true iff the
  lookup hits.

The AST is modelled by `PyNode`; `stmt` stands for any other statement kind
(`ast.walk` descends into every node).  `ast.walk` is a breadth-first
traversal: dequeue a node, enqueue its children.  Every node is dequeued
exactly once, so the total node count is sufficient fuel.  Parameter,
docstring, decorator and return-type extraction are omitted — the claims
under test do not consult them. -/

inductive PyNode where
  | funcDef (name : String) (lineno endLineno : Nat) (isAsync : Bool) (body : List PyNode)
  | classDef (name : String) (lineno endLineno : Nat) (body : List PyNode)
  | stmt (body : List PyNode)
deriving Repr

mutual

def PyNode.size : PyNode → Nat
  | .funcDef _ _ _ _ b => 1 + sizeNodes b
  | .classDef _ _ _ b => 1 + sizeNodes b
  | .stmt b => 1 + sizeNodes b

def sizeNodes : List PyNode → Nat
  | [] => 0
  | n :: r => PyNode.size n + sizeNodes r

end

def PyNode.children : PyNode → List PyNode
  | .funcDef _ _ _ _ b => b
  | .classDef _ _ _ b => b
  | .stmt b => b

/-- `ast.walk`: breadth-first traversal over a queue of nodes. -/
def walkAux : Nat → List PyNode → List PyNode
  | 0, _ => []
  | _fuel + 1, [] => []
  | fuel + 1, n :: rest => n :: walkAux fuel (rest ++ n.children)

def walk (moduleBody : List PyNode) : List PyNode :=
  walkAux (sizeNodes moduleBody) moduleBody

mutual

/-- A node together with all of its descendants. -/
def allNodes : PyNode → List PyNode
  | .funcDef na l e a b => .funcDef na l e a b :: allNodesList b
  | .classDef na l e b => .classDef na l e b :: allNodesList b
  | .stmt b => .stmt b :: allNodesList b

def allNodesList : List PyNode → List PyNode
  | [] => []
  | n :: r => allNodes n ++ allNodesList r

end

theorem PyNode.size_pos (n : PyNode) : 0 < n.size := by
  cases n <;> simp [PyNode.size]

theorem sizeNodes_eq_zero {q : List PyNode} (h : sizeNodes q = 0) : q = [] := by
  cases q with
  | nil => rfl
  | cons n r =>
    exfalso
    have := PyNode.size_pos n
    simp [sizeNodes] at h
    omega

theorem sizeNodes_append (a b : List PyNode) :
    sizeNodes (a ++ b) = sizeNodes a + sizeNodes b := by
  induction a with
  | nil => simp [sizeNodes]
  | cons n r ih =>
    simp [sizeNodes, ih]
    omega

theorem PyNode.size_children (n : PyNode) : n.size = 1 + sizeNodes n.children := by
  cases n <;> rfl

theorem allNodes_eq (n : PyNode) : allNodes n = n :: allNodesList n.children := by
  cases n <;> rfl

theorem allNodesList_cons (n : PyNode) (r : List PyNode) :
    allNodesList (n :: r) = allNodes n ++ allNodesList r := rfl

theorem allNodesList_append (a b : List PyNode) :
    allNodesList (a ++ b) = allNodesList a ++ allNodesList b := by
  induction a with
  | nil => rfl
  | cons n r ih =>
    rw [List.cons_append, allNodesList_cons, allNodesList_cons, ih, List.append_assoc]

theorem self_mem_allNodes (n : PyNode) : n ∈ allNodes n := by
  rw [allNodes_eq]
  exact List.mem_cons_self _ _

theorem mem_allNodesList_of_mem {q : List PyNode} {x : PyNode} (h : x ∈ q) :
    x ∈ allNodesList q := by
  induction q with
  | nil => simp at h
  | cons n r ih =>
    rw [allNodesList_cons]
    rcases List.mem_cons.mp h with rfl | h'
    · exact List.mem_append.mpr (.inl (self_mem_allNodes x))
    · exact List.mem_append.mpr (.inr (ih h'))

/-- Descendant-of-descendant is a descendant (bounded by total size). -/
theorem allNodes_trans_aux : ∀ k : Nat,
    (∀ n : PyNode, n.size ≤ k → ∀ x ∈ allNodes n, ∀ y ∈ allNodes x, y ∈ allNodes n) ∧
    (∀ q : List PyNode, sizeNodes q ≤ k →
      ∀ x ∈ allNodesList q, ∀ y ∈ allNodes x, y ∈ allNodesList q) := by
  intro k
  induction k with
  | zero =>
    constructor
    · intro n hn
      exact absurd hn (by have := PyNode.size_pos n; omega)
    · intro q hq x hx
      have hq0 : q = [] := sizeNodes_eq_zero (Nat.le_zero.mp hq)
      subst hq0
      simp [allNodesList] at hx
  | succ k ih =>
    have hnode : ∀ n : PyNode, n.size ≤ k + 1 →
        ∀ x ∈ allNodes n, ∀ y ∈ allNodes x, y ∈ allNodes n := by
      intro n hn x hx y hy
      rw [allNodes_eq] at hx ⊢
      rcases List.mem_cons.mp hx with rfl | hx'
      · rw [allNodes_eq] at hy
        exact hy
      · have hsz : sizeNodes n.children ≤ k := by
          have := PyNode.size_children n
          omega
        exact List.mem_cons_of_mem _ (ih.2 n.children hsz x hx' y hy)
    refine ⟨hnode, ?_⟩
    intro q
    induction q with
    | nil =>
      intro _ x hx
      simp [allNodesList] at hx
    | cons n r ihr =>
      intro hq x hx y hy
      rw [allNodesList_cons] at hx ⊢
      have hsz : sizeNodes (n :: r) = PyNode.size n + sizeNodes r := rfl
      rcases List.mem_append.mp hx with h1 | h2
      · refine List.mem_append.mpr (.inl ?_)
        exact hnode n (by have := PyNode.size_pos n; omega) x h1 y hy
      · refine List.mem_append.mpr (.inr ?_)
        exact ihr (by have := PyNode.size_pos n; omega) x h2 y hy

/-- `walkAux` visits every descendant when the fuel covers the node count. -/
theorem walkAux_complete : ∀ fuel q, sizeNodes q ≤ fuel →
    ∀ x ∈ allNodesList q, x ∈ walkAux fuel q := by
  intro fuel
  induction fuel with
  | zero =>
    intro q hq x hx
    have hq0 : q = [] := sizeNodes_eq_zero (Nat.le_zero.mp hq)
    subst hq0
    simp [allNodesList] at hx
  | succ f ih =>
    intro q hq x hx
    cases q with
    | nil => simp [allNodesList] at hx
    | cons n rest =>
      rw [allNodesList_cons] at hx
      show x ∈ n :: walkAux f (rest ++ n.children)
      rcases List.mem_append.mp hx with h1 | h2
      · rw [allNodes_eq] at h1
        rcases List.mem_cons.mp h1 with rfl | h1'
        · exact List.mem_cons_self _ _
        · refine List.mem_cons_of_mem _ (ih (rest ++ n.children) ?_ x ?_)
          · rw [sizeNodes_append]
            have h3 : sizeNodes (n :: rest) = PyNode.size n + sizeNodes rest := rfl
            have h4 := PyNode.size_children n
            omega
          · rw [allNodesList_append]
            exact List.mem_append.mpr (.inr h1')
      · refine List.mem_cons_of_mem _ (ih (rest ++ n.children) ?_ x ?_)
        · rw [sizeNodes_append]
          have h3 : sizeNodes (n :: rest) = PyNode.size n + sizeNodes rest := rfl
          have h4 := PyNode.size_children n
          omega
        · rw [allNodesList_append]
          exact List.mem_append.mpr (.inl h2)

/-- Everything `walkAux` yields is a descendant of the queue. -/
theorem walkAux_sound : ∀ fuel q, ∀ x ∈ walkAux fuel q, x ∈ allNodesList q := by
  intro fuel
  induction fuel with
  | zero =>
    intro q x hx
    simp [walkAux] at hx
  | succ f ih =>
    intro q x hx
    cases q with
    | nil => simp [walkAux] at hx
    | cons n rest =>
      rw [show walkAux (f + 1) (n :: rest) = n :: walkAux f (rest ++ n.children) from rfl]
        at hx
      rw [allNodesList_cons]
      rcases List.mem_cons.mp hx with rfl | hx'
      · exact List.mem_append.mpr (.inl (self_mem_allNodes x))
      · have := ih (rest ++ n.children) x hx'
        rw [allNodesList_append] at this
        rcases List.mem_append.mp this with h1 | h2
        · exact List.mem_append.mpr (.inr h1)
        · refine List.mem_append.mpr (.inl ?_)
          rw [allNodes_eq]
          exact List.mem_cons_of_mem _ h2

/-- A method record as nested in a class (lines 129-142; parameter,
docstring and decorator fields omitted). -/
structure MethodRec where
  name : String
  lineStart : Nat
  lineEnd : Nat
  isAsync : Bool
deriving DecidableEq, Repr

/-- A class record (lines 152-159; docstring and base classes omitted). -/
structure ClassRec where
  name : String
  lineStart : Nat
  lineEnd : Nat
  methods : List MethodRec
deriving DecidableEq, Repr

/-- A flat function record (lines 94-105; parameters, docstring, return
type and signature omitted). -/
structure FuncInfo where
  name : String
  lineStart : Nat
  lineEnd : Nat
  parentClass : Option String
  isMethod : Bool
  isAsync : Bool
deriving DecidableEq, Repr

def toMethodRec : PyNode → Option MethodRec
  | .funcDef name l e a _ => some ⟨name, l, e, a⟩
  | _ => none

/-- One entry of `_extract_classes` (lines 123-160): the methods are the
function definitions that are direct children of the class body. -/
def toClassRec : PyNode → Option ClassRec
  | .classDef name l e body => some ⟨name, l, e, body.filterMap toMethodRec⟩
  | _ => none

def extractClasses (moduleBody : List PyNode) : List ClassRec :=
  (walk moduleBody).filterMap toClassRec

/-- The `class_ranges` lookup (lines 76-84): the dict is written class by
class over each class's whole line range, so for a given line the *last*
class in extraction order whose `[line_start, line_end]` contains it wins. -/
def classAt (classes : List ClassRec) (line : Nat) : Option String :=
  ((classes.filter fun c => decide (c.lineStart ≤ line ∧ line ≤ c.lineEnd)).getLast?).map
    (·.name)

/-- One entry of `_extract_functions` (lines 81-106): `parent_class` is the
`class_ranges` lookup at the def's line, `is_method` its success. -/
def toFuncInfo (classes : List ClassRec) : PyNode → Option FuncInfo
  | .funcDef name l e a _ =>
    let parent := classAt classes l
    some ⟨name, l, e, parent, parent.isSome, a⟩
  | _ => none

def extractFunctions (moduleBody : List PyNode) (classes : List ClassRec) : List FuncInfo :=
  (walk moduleBody).filterMap (toFuncInfo classes)

structure ParseResult where
  functions : List FuncInfo
  classes : List ClassRec
deriving DecidableEq, Repr

/-- `PythonParser.parse` on a syntactically valid module (lines 27-52):
classes first, then the flat functions list against those classes. -/
def pythonParse (moduleBody : List PyNode) : ParseResult :=
  let classes := extractClasses moduleBody
  ⟨extractFunctions moduleBody classes, classes⟩

/-- The claimed invariant: the flat list is exactly standalone functions
plus the methods of the classes — every flat entry marked as a method is a
method of its named class, and every method appears flat with matching
`parent_class` and `is_method`. -/
def flatEqualsUnionB (r : ParseResult) : Bool :=
  (r.functions.all fun f =>
    !f.isMethod ||
      r.classes.any fun c =>
        (f.parentClass == some c.name) &&
          c.methods.any fun m =>
            (m.name == f.name) && (m.lineStart == f.lineStart) &&
              (m.lineEnd == f.lineEnd)) &&
  (r.classes.all fun c => c.methods.all fun m =>
    r.functions.any fun f =>
      (f.name == m.name) && (f.lineStart == m.lineStart) && (f.lineEnd == m.lineEnd) &&
        (f.parentClass == some c.name) && f.isMethod)

/-- C10 (counterexample): a function nested inside a method — here `inner`
inside `C.m` — is swept up by `ast.walk` into the flat list with
`parent_class = "C"` and `is_method = true` (its def line lies in `C`'s
range), yet it is not among `C`'s methods, so the flat list is not the union
the claim describes. -/
theorem parser_nested_def_counterexample :
    (pythonParse
        [.classDef "C" 1 4 [.funcDef "m" 2 4 false [.funcDef "inner" 3 4 false []]]]).classes =
      [⟨"C", 1, 4, [⟨"m", 2, 4, false⟩]⟩] ∧
    (pythonParse
        [.classDef "C" 1 4 [.funcDef "m" 2 4 false [.funcDef "inner" 3 4 false []]]]).functions =
      [⟨"m", 2, 4, some "C", true, false⟩, ⟨"inner", 3, 4, some "C", true, false⟩] ∧
    flatEqualsUnionB
      (pythonParse
        [.classDef "C" 1 4 [.funcDef "m" 2 4 false [.funcDef "inner" 3 4 false []]]]) =
      false := by
  refine ⟨by decide, by decide, by decide⟩

theorem getLast?_name_of_all (l : List ClassRec) (nm : String) (hne : l ≠ [])
    (hall : ∀ x ∈ l, x.name = nm) : (l.getLast?).map (·.name) = some nm := by
  obtain ⟨x, hx⟩ := Option.isSome_iff_exists.mp (List.getLast?_isSome.mpr hne)
  rw [hx]
  obtain ⟨hl, hxe⟩ := List.mem_getLast?_eq_getLast (show x ∈ l.getLast? from hx)
  have hxl : x ∈ l := hxe ▸ List.getLast_mem hl
  simp [hall x hxl]

/-- C10 (amended): every method of every extracted class appears in the
flat `functions` list with `parent_class` equal to the class's name and
`is_method` true (given well-formed line numbers: each method's def line
lies in its class's range, and classes of other names do not span it); the
flat list may additionally contain nested functions, and a function nested
inside a method is also attributed to the enclosing class with
`is_method = true` although it is not in that class's `methods`. -/
theorem parser_methods_in_flat (moduleBody : List PyNode)
    (hcontain : ∀ c ∈ (pythonParse moduleBody).classes, ∀ m ∈ c.methods,
      c.lineStart ≤ m.lineStart ∧ m.lineStart ≤ c.lineEnd)
    (huniq : ∀ c ∈ (pythonParse moduleBody).classes, ∀ m ∈ c.methods,
      ∀ c' ∈ (pythonParse moduleBody).classes,
        c'.lineStart ≤ m.lineStart → m.lineStart ≤ c'.lineEnd → c'.name = c.name) :
    ∀ c ∈ (pythonParse moduleBody).classes, ∀ m ∈ c.methods,
      ∃ f ∈ (pythonParse moduleBody).functions,
        f.name = m.name ∧ f.lineStart = m.lineStart ∧ f.lineEnd = m.lineEnd ∧
        f.isAsync = m.isAsync ∧ f.parentClass = some c.name ∧ f.isMethod = true := by
  intro c hc m hm
  have hc' : c ∈ extractClasses moduleBody := hc
  obtain ⟨node, hnodeWalk, hnodeCls⟩ := List.mem_filterMap.mp hc'
  rcases node with _ | ⟨cname, cl, ce, cbody⟩ | _
  · simp [toClassRec] at hnodeCls
  · simp only [toClassRec, Option.some.injEq] at hnodeCls
    subst hnodeCls
    obtain ⟨mnode, hmnodeBody, hmnodeRec⟩ := List.mem_filterMap.mp hm
    rcases mnode with ⟨mname, ml, me, ma, mbody⟩ | _ | _
    · simp only [toMethodRec, Option.some.injEq] at hmnodeRec
      subst hmnodeRec
      -- the method node is in the walk of the module
      have hclsAll : PyNode.classDef cname cl ce cbody ∈ allNodesList moduleBody :=
        walkAux_sound _ _ _ hnodeWalk
      have hmAll : PyNode.funcDef mname ml me ma mbody ∈ allNodesList moduleBody := by
        refine (allNodes_trans_aux (sizeNodes moduleBody)).2 moduleBody (le_refl _)
          _ hclsAll _ ?_
        rw [allNodes_eq]
        refine List.mem_cons_of_mem _ (mem_allNodesList_of_mem ?_)
        exact hmnodeBody
      have hmWalk : PyNode.funcDef mname ml me ma mbody ∈ walk moduleBody :=
        walkAux_complete _ _ (le_refl _) _ hmAll
      -- the class_ranges lookup at the method's line yields the class name
      have hrange := hcontain _ hc _ hm
      have hparent : classAt (extractClasses moduleBody) ml = some cname := by
        unfold classAt
        apply getLast?_name_of_all
        · refine List.ne_nil_of_mem (List.mem_filter.mpr ⟨hc', ?_⟩)
          simp only [decide_eq_true_eq]
          exact hrange
        · intro x hx
          obtain ⟨hx1, hx2⟩ := List.mem_filter.mp hx
          simp only [decide_eq_true_eq] at hx2
          exact huniq _ hc _ hm x hx1 hx2.1 hx2.2
      have hfun : toFuncInfo (extractClasses moduleBody)
          (.funcDef mname ml me ma mbody) =
          some ⟨mname, ml, me, some cname, true, ma⟩ := by
        simp only [toFuncInfo]
        rw [hparent]
        rfl
      exact ⟨⟨mname, ml, me, some cname, true, ma⟩,
        List.mem_filterMap.mpr ⟨_, hmWalk, hfun⟩, rfl, rfl, rfl, rfl, rfl, rfl⟩
    · simp [toMethodRec] at hmnodeRec
    · simp [toMethodRec] at hmnodeRec
  · simp [toClassRec] at hnodeCls

/-- Concrete instantiation of `parser_methods_in_flat`: the method `start`
of class `Engine` appears in the flat list with
`parent_class = "Engine"`. -/
theorem parser_methods_in_flat_witness :
    ∃ f ∈ (pythonParse
        [.classDef "Engine" 1 3
          [.funcDef "start" 2 2 false [], .funcDef "stop" 3 3 false []]]).functions,
      f.name = "start" ∧ f.lineStart = 2 ∧ f.lineEnd = 2 ∧ f.isAsync = false ∧
        f.parentClass = some "Engine" ∧ f.isMethod = true :=
  parser_methods_in_flat
    [.classDef "Engine" 1 3
      [.funcDef "start" 2 2 false [], .funcDef "stop" 3 3 false []]]
    (by decide) (by decide)
    ⟨"Engine", 1, 3, [⟨"start", 2, 2, false⟩, ⟨"stop", 3, 3, false⟩]⟩ (by decide)
    ⟨"start", 2, 2, false⟩ (by decide)

end GithubGraph
